import Mathlib

/-!
Verification of single-file patterns of the `pymaster` repository.

Each Python function is embedded shallowly: floats become rationals (`ℚ`),
Python ints become `ℤ` or `ℕ`, raised exceptions become explicit error
constructors, and nondeterminism (wall-clock time, random jitter, the
behaviour of a wrapped callable) becomes explicit parameters.
-/

namespace Retries
/-!
Embedding of `src/10_retries_and_backoff.py`.
-/

/-- Outcome of one invocation of the wrapped callable `func`:
it returns a string, raises `TransientError`, or raises `PermanentError`. -/
inductive FuncOutcome where
  | ok (s : String)
  | transient
  | permanent
deriving DecidableEq, Repr

/-- Outcome of `with_retries` itself: the returned string, the
`ValueError` for bad `attempts`, a re-raised `PermanentError`, the
`RuntimeError("failed after {attempts} attempts")`, or the trailing
`RuntimeError("unexpected retry flow")` after the loop. -/
inductive RetryOutcome where
  | ok (s : String)
  | valueError
  | permanentError
  | failedAfter (n : ℕ)
  | unexpectedFlow
deriving DecidableEq, Repr

/-- `compute_backoff_delay(attempt, base_delay, max_delay)` from
`src/10_retries_and_backoff.py` lines 28-31.  The call
`random.uniform(0, delay * 0.25)` is modelled by the draw `u ∈ [0, 1]`
scaled to the interval `[0, delay * 0.25]`. -/
def compute_backoff_delay (attempt : ℕ) (base_delay max_delay : ℚ) (u : ℚ) : ℚ :=
  let delay := min (base_delay * 2 ^ (attempt - 1)) max_delay
  let jitter := u * (delay * (1/4))
  delay + jitter

/-- The `for attempt in range(1, attempts + 1)` loop of `with_retries`
(lines 44-56), iterating over the remaining loop counters.  The wrapped
callable is a function `func` from the invocation number (1-based) to its
outcome.  Returns the outcome together with the number of invocations of
`func` performed from this point on.  Exhausting the counter list without
returning or raising is the trailing
`raise RuntimeError("unexpected retry flow")` (line 58). -/
def retryGo (func : ℕ → FuncOutcome) (attempts : ℕ) :
    List ℕ → RetryOutcome × ℕ
  | [] => (.unexpectedFlow, 0)
  | attempt :: rest =>
    match func attempt with
    | .ok s => (.ok s, 1)
    | .permanent => (.permanentError, 1)
    | .transient =>
      if attempt = attempts then (.failedAfter attempts, 1)
      else
        let r := retryGo func attempts rest
        (r.1, r.2 + 1)

/-- `with_retries(func, attempts=...)` from `src/10_retries_and_backoff.py`
lines 34-58 (the sleeping between attempts has no effect on the outcome and
is not modelled).  `attempts` is a Python `int`, hence `ℤ`; the loop runs
over `range(1, attempts + 1)`, i.e. `List.range' 1 attempts.toNat`.  The
result is paired with the total number of invocations of `func`. -/
def with_retries (func : ℕ → FuncOutcome) (attempts : ℤ) : RetryOutcome × ℕ :=
  if attempts < 1 then (.valueError, 0)
  else retryGo func attempts.toNat (List.range' 1 attempts.toNat)

/-- The callable produced by `flaky_call_factory` (lines 61-70): invocation
`n` (1-based, so the closure counter `state["count"]` equals `n`) raises
`TransientError` while `n < 3` and returns `"success"` from then on. -/
def flaky_call (n : ℕ) : FuncOutcome :=
  if n < 3 then .transient else .ok "success"

end Retries

namespace Breaker
/-!
Embedding of `src/python/46_circuit_breaker.py`.

`time.time()` is called twice in `CircuitBreaker.call`: at entry (bound to
`now`) and again when the circuit opens on reaching the failure threshold.
Both instants are explicit parameters `now` and `openNow`.  Whether the
wrapped callable returns or raises is the parameter `funcRes : Option String`
(`some s` = returns `s`, `none` = raises).
-/

/-- The `@dataclass class CircuitBreaker` of lines 24-30, fields in source
order with the source's defaults. -/
structure CircuitBreaker where
  failure_threshold : ℤ
  cooldown_s : ℚ
  _failures : ℤ := 0
  _opened_at : Option ℚ := none
deriving DecidableEq, Repr

/-- Outcome of `CircuitBreaker.call`: the wrapped callable's return value,
the `CircuitOpenError` raised without invoking the callable, or the
re-raised exception of a failing invocation. -/
inductive CBResult where
  | ok (s : String)
  | circuitOpen
  | funcRaised
deriving DecidableEq, Repr

/-- `CircuitBreaker.call(func)` from lines 32-50, returning the outcome and
the updated breaker.  The first stage mirrors lines 33-39: while open and
inside the cooldown it raises `CircuitOpenError` (`gate = none`) leaving the
state untouched; once the cooldown has elapsed it resets `_opened_at` and
`_failures` (half-open probe).  The second stage mirrors lines 41-50. -/
def CircuitBreaker.call (cb : CircuitBreaker) (now openNow : ℚ)
    (funcRes : Option String) : CBResult × CircuitBreaker :=
  let gate : Option CircuitBreaker :=
    match cb._opened_at with
    | some openedAt =>
      if now - openedAt < cb.cooldown_s then none
      else some { cb with _opened_at := none, _failures := 0 }
    | none => some cb
  match gate with
  | none => (.circuitOpen, cb)
  | some cb' =>
    match funcRes with
    | none =>
      let f := cb'._failures + 1
      (.funcRaised,
       { cb' with
          _failures := f
          _opened_at := if cb'.failure_threshold ≤ f then some openNow
                        else cb'._opened_at })
    | some s => (.ok s, { cb' with _failures := 0 })

/-- Run a sequence of calls, each given as `(now, openNow, funcRes)`;
returns the list of outcomes and the final breaker state. -/
def runCalls (cb : CircuitBreaker) :
    List (ℚ × ℚ × Option String) → List CBResult × CircuitBreaker
  | [] => ([], cb)
  | (now, openNow, funcRes) :: rest =>
    let step := cb.call now openNow funcRes
    let r := runCalls step.2 rest
    (step.1 :: r.1, r.2)

end Breaker

namespace Bucket
/-!
Embedding of `src/python/47_rate_limiter_token_bucket.py`.
`time.time()` at the top of `allow` is the explicit parameter `now`.
-/

/-- The `@dataclass class TokenBucket` of lines 13-19, fields in source
order with the source's defaults. -/
structure TokenBucket where
  capacity : ℚ
  refill_rate_per_s : ℚ
  _tokens : Option ℚ := none
  _last : Option ℚ := none
deriving DecidableEq, Repr

/-- `TokenBucket.allow(cost)` from lines 21-35, returning the decision and
the updated bucket.  `Except.error ()` is the `assert self._last is not None`
failing (possible only for a hand-built state with `_tokens` set but `_last`
unset; never from states this file runs). -/
def TokenBucket.allow (b : TokenBucket) (now : ℚ) (cost : ℚ) :
    Except Unit (Bool × TokenBucket) :=
  let b := if b._tokens = none then
             { b with _tokens := some b.capacity, _last := some now }
           else b
  match b._tokens, b._last with
  | some t, some last =>
    let elapsed := now - last
    let t := min b.capacity (t + elapsed * b.refill_rate_per_s)
    if cost ≤ t then
      .ok (true, { b with _tokens := some (t - cost), _last := some now })
    else
      .ok (false, { b with _tokens := some t, _last := some now })
  | _, _ => .error ()

/-- A freshly constructed `TokenBucket(capacity=..., refill_rate_per_s=...)`. -/
def freshBucket (capacity refill_rate_per_s : ℚ) : TokenBucket :=
  { capacity := capacity, refill_rate_per_s := refill_rate_per_s }

/-- Run a sequence of `allow` calls, each given as `(now, cost)`; returns
the final bucket (or the failed assertion). -/
def runBucket (b : TokenBucket) : List (ℚ × ℚ) → Except Unit TokenBucket
  | [] => .ok b
  | (now, cost) :: rest =>
    match b.allow now cost with
    | .ok (_, b') => runBucket b' rest
    | .error e => .error e

/-- The calls of a list are at nondecreasing instants and nonnegative cost. -/
def ValidSeq (calls : List (ℚ × ℚ)) : Prop :=
  (calls.map Prod.fst).Chain' (· ≤ ·) ∧ ∀ c ∈ calls, 0 ≤ c.2

end Bucket

namespace Pricing
/-!
Embedding of `src/python/02_custom_exceptions.py`.  The exception messages
(pure f-strings) are not modelled; only the exception class matters here.
-/

/-- The concrete subclasses of the domain base `PricingError`
(lines 10-23).  Every error `calculate_totals` signals is one of these,
i.e. a `PricingError`. -/
inductive PricingErr where
  | invalidTax
  | invalidItem
  | duplicateItem
deriving DecidableEq, Repr

/-- The `@dataclass(frozen=True) class LineItem` of lines 26-30. -/
structure LineItem where
  name : String
  price : ℚ
  qty : ℤ
deriving DecidableEq, Repr

/-- Round-half-to-even on `ℚ`, the rounding `round` uses in Python. -/
def roundHalfEven (x : ℚ) : ℤ :=
  let n := ⌊x⌋
  let frac := x - n
  if frac < 1/2 then n
  else if 1/2 < frac then n + 1
  else if n % 2 = 0 then n else n + 1

/-- `round(x, 2)`: round half to even at two decimal places. -/
def pyRound2 (x : ℚ) : ℚ := (roundHalfEven (x * 100) : ℚ) / 100

/-- `not item.name.strip()`: the stripped name is falsy (empty), i.e. every
character of the name is whitespace. -/
def blankName (s : String) : Bool := s.data.all Char.isWhitespace

/-- `validate_item(item)` from lines 33-39: `InvalidItemError` for a blank
(stripped-empty) name, a negative price, or a non-positive qty, in that
order. -/
def validate_item (item : LineItem) : Except PricingErr Unit :=
  if blankName item.name then .error .invalidItem
  else if item.price < 0 then .error .invalidItem
  else if item.qty ≤ 0 then .error .invalidItem
  else .ok ()

/-- The `for item in items` loop of `calculate_totals` (lines 47-51) with
the accumulated insertion-ordered dict `totals` as an association list. -/
def totalsLoop (tax : ℚ) : List LineItem → List (String × ℚ) →
    Except PricingErr (List (String × ℚ))
  | [], totals => .ok totals
  | item :: rest, totals =>
    match validate_item item with
    | .error e => .error e
    | .ok () =>
      if item.name ∈ totals.map Prod.fst then .error .duplicateItem
      else totalsLoop tax rest
            (totals ++ [(item.name, pyRound2 (item.price * (item.qty : ℚ) * (1 + tax)))])

/-- `calculate_totals(items, tax)` from lines 42-53. -/
def calculate_totals (items : List LineItem) (tax : ℚ) :
    Except PricingErr (List (String × ℚ)) :=
  if tax < 0 then .error .invalidTax
  else totalsLoop tax items []

/-- An item passing `validate_item` without an exception. -/
def ValidItem (item : LineItem) : Prop :=
  blankName item.name = false ∧ 0 ≤ item.price ∧ 0 < item.qty

instance (item : LineItem) : Decidable (ValidItem item) := by
  unfold ValidItem; infer_instance

end Pricing

namespace Immutable
/-!
Embedding of `src/39_immutable_data.py`.  The frozen dataclass `Cart` holds
a tuple of item names; the tuple is a `List String`.
-/

/-- The `@dataclass(frozen=True) class Cart` of lines 17-19. -/
structure Cart where
  items : List String
deriving DecidableEq, Repr

/-- `add_item(cart, item)` from lines 22-25: `ValueError` on a falsy (empty)
item, otherwise a new `Cart` with `item` appended to a copy of the tuple. -/
def add_item (cart : Cart) (item : String) : Except Unit Cart :=
  if item = "" then .error ()
  else .ok ⟨cart.items ++ [item]⟩

end Immutable

namespace CacheRoot
/-!
Embedding of `currency_rate` from `src/14_lru_cache.py` (lines 19-26).
`time.sleep` only wastes time and `lru_cache` memoises this pure function;
neither changes the input-output behaviour embedded here.
-/

/-- `currency_rate(base, quote)` of `src/14_lru_cache.py`: the two-entry
rate table, `ValueError` (with its message) for any other pair. -/
def currency_rate (base quote : String) : Except String ℚ :=
  let rates : List ((String × String) × ℚ) :=
    [(("USD", "EUR"), 92/100), (("USD", "JPY"), 148)]
  match rates.lookup (base, quote) with
  | none => .error ("unsupported pair: " ++ base ++ "/" ++ quote)
  | some r => .ok r

end CacheRoot

namespace CachePy
/-!
Embedding of `currency_rate` from `src/python/14_lru_cache.py`
(lines 11-18), the duplicate of `src/14_lru_cache.py` whose only differences
are in the header comment.
-/

/-- `currency_rate(base, quote)` of `src/python/14_lru_cache.py`. -/
def currency_rate (base quote : String) : Except String ℚ :=
  let rates : List ((String × String) × ℚ) :=
    [(("USD", "EUR"), 92/100), (("USD", "JPY"), 148)]
  match rates.lookup (base, quote) with
  | none => .error ("unsupported pair: " ++ base ++ "/" ++ quote)
  | some r => .ok r

end CachePy

/-! ## Theorems about the retry helper -/

namespace Retries

lemma retryGo_cons_ok (func : ℕ → FuncOutcome) (attempts a : ℕ) (rest : List ℕ)
    (str : String) (h : func a = .ok str) :
    retryGo func attempts (a :: rest) = (.ok str, 1) := by
  simp [retryGo, h]

lemma retryGo_cons_permanent (func : ℕ → FuncOutcome) (attempts a : ℕ)
    (rest : List ℕ) (h : func a = .permanent) :
    retryGo func attempts (a :: rest) = (.permanentError, 1) := by
  simp [retryGo, h]

lemma retryGo_cons_transient_last (func : ℕ → FuncOutcome) (attempts a : ℕ)
    (rest : List ℕ) (h : func a = .transient) (ha : a = attempts) :
    retryGo func attempts (a :: rest) = (.failedAfter attempts, 1) := by
  subst ha
  simp [retryGo, h]

lemma retryGo_cons_transient (func : ℕ → FuncOutcome) (attempts a : ℕ)
    (rest : List ℕ) (h : func a = .transient) (ha : a ≠ attempts) :
    retryGo func attempts (a :: rest) =
      ((retryGo func attempts rest).1, (retryGo func attempts rest).2 + 1) := by
  simp [retryGo, h, ha]

lemma retryGo_count_le (func : ℕ → FuncOutcome) (attempts : ℕ) :
    ∀ n s, (retryGo func attempts (List.range' s n)).2 ≤ n := by
  intro n
  induction n with
  | zero => intro s; simp [retryGo]
  | succ n ih =>
    intro s
    rw [List.range'_succ]
    cases h : func s with
    | ok str => rw [retryGo_cons_ok func attempts s _ str h]; omega
    | permanent => rw [retryGo_cons_permanent func attempts s _ h]; omega
    | transient =>
      by_cases hs : s = attempts
      · rw [retryGo_cons_transient_last func attempts s _ h hs]; omega
      · rw [retryGo_cons_transient func attempts s _ h hs]
        have := ih (s + 1)
        simpa using Nat.add_le_add_right this 1

lemma retryGo_first_ok (func : ℕ → FuncOutcome) (attempts : ℕ) :
    ∀ n s k str, s + n = attempts + 1 → s ≤ k → k ≤ attempts →
      (∀ i, s ≤ i → i < k → func i = .transient) → func k = .ok str →
      retryGo func attempts (List.range' s n) = (.ok str, k + 1 - s) := by
  intro n
  induction n with
  | zero => intro s k str hsum hsk hka _ _; omega
  | succ n ih =>
    intro s k str hsum hsk hka hpre hk
    rw [List.range'_succ]
    rcases eq_or_lt_of_le hsk with heq | hlt
    · subst heq
      rw [retryGo_cons_ok func attempts s _ str hk]
      congr 1
      omega
    · have hs : func s = .transient := hpre s le_rfl hlt
      have hne : s ≠ attempts := by omega
      rw [retryGo_cons_transient func attempts s _ hs hne,
        ih (s + 1) k str (by omega) (by omega) hka
          (fun i h1 h2 => hpre i (by omega) h2) hk]
      simp only
      congr 1
      omega

lemma retryGo_first_permanent (func : ℕ → FuncOutcome) (attempts : ℕ) :
    ∀ n s k, s + n = attempts + 1 → s ≤ k → k ≤ attempts →
      (∀ i, s ≤ i → i < k → func i = .transient) → func k = .permanent →
      retryGo func attempts (List.range' s n) = (.permanentError, k + 1 - s) := by
  intro n
  induction n with
  | zero => intro s k hsum hsk hka _ _; omega
  | succ n ih =>
    intro s k hsum hsk hka hpre hk
    rw [List.range'_succ]
    rcases eq_or_lt_of_le hsk with heq | hlt
    · subst heq
      rw [retryGo_cons_permanent func attempts s _ hk]
      congr 1
      omega
    · have hs : func s = .transient := hpre s le_rfl hlt
      have hne : s ≠ attempts := by omega
      rw [retryGo_cons_transient func attempts s _ hs hne,
        ih (s + 1) k (by omega) (by omega) hka
          (fun i h1 h2 => hpre i (by omega) h2) hk]
      simp only
      congr 1
      omega

lemma retryGo_all_transient (func : ℕ → FuncOutcome) (attempts : ℕ) :
    ∀ n s, s + n = attempts + 1 → s ≤ attempts →
      (∀ i, s ≤ i → i ≤ attempts → func i = .transient) →
      retryGo func attempts (List.range' s n) = (.failedAfter attempts, n) := by
  intro n
  induction n with
  | zero => intro s hsum hs _; omega
  | succ n ih =>
    intro s hsum hs htr
    rw [List.range'_succ]
    have hstr : func s = .transient := htr s le_rfl hs
    by_cases hse : s = attempts
    · rw [retryGo_cons_transient_last func attempts s _ hstr hse]
      have : n = 0 := by omega
      simp [this]
    · rw [retryGo_cons_transient func attempts s _ hstr hse,
        ih (s + 1) (by omega) (by omega) (fun i h1 h2 => htr i (by omega) h2)]

lemma retryGo_failedAfter_transient (func : ℕ → FuncOutcome) (attempts : ℕ) :
    ∀ n s, s + n = attempts + 1 →
      (retryGo func attempts (List.range' s n)).1 = .failedAfter attempts →
      ∀ i, s ≤ i → i ≤ attempts → func i = .transient := by
  intro n
  induction n with
  | zero =>
    intro s _ hres
    simp [retryGo] at hres
  | succ n ih =>
    intro s hsum hres i h1 h2
    rw [List.range'_succ] at hres
    cases h : func s with
    | ok str => rw [retryGo_cons_ok func attempts s _ str h] at hres; simp at hres
    | permanent =>
      rw [retryGo_cons_permanent func attempts s _ h] at hres; simp at hres
    | transient =>
      by_cases hse : s = attempts
      · have : i = s := by omega
        rw [this, h]
      · rcases eq_or_lt_of_le h1 with heq | hlt
        · rw [← heq, h]
        · rw [retryGo_cons_transient func attempts s _ h hse] at hres
          exact ih (s + 1) (by omega) hres i (by omega) h2

lemma retryGo_ne_valueError (func : ℕ → FuncOutcome) (attempts : ℕ) :
    ∀ l, (retryGo func attempts l).1 ≠ .valueError := by
  intro l
  induction l with
  | nil => simp [retryGo]
  | cons a rest ih =>
    cases h : func a with
    | ok str => rw [retryGo_cons_ok func attempts a rest str h]; simp
    | permanent => rw [retryGo_cons_permanent func attempts a rest h]; simp
    | transient =>
      by_cases hse : a = attempts
      · rw [retryGo_cons_transient_last func attempts a rest h hse]; simp
      · rw [retryGo_cons_transient func attempts a rest h hse]
        exact ih

lemma retryGo_ne_unexpected (func : ℕ → FuncOutcome) (attempts : ℕ) :
    ∀ n s, s + n = attempts + 1 → s ≤ attempts →
      (retryGo func attempts (List.range' s n)).1 ≠ .unexpectedFlow := by
  intro n
  induction n with
  | zero => intro s hsum hs; omega
  | succ n ih =>
    intro s hsum hs
    rw [List.range'_succ]
    cases h : func s with
    | ok str => rw [retryGo_cons_ok func attempts s _ str h]; simp
    | permanent => rw [retryGo_cons_permanent func attempts s _ h]; simp
    | transient =>
      by_cases hse : s = attempts
      · rw [retryGo_cons_transient_last func attempts s _ h hse]; simp
      · rw [retryGo_cons_transient func attempts s _ h hse]
        exact ih (s + 1) (by omega) (by omega)

end Retries

namespace Retries

/-- Claim C2: `compute_backoff_delay` implements exponential backoff with
jitter: for `attempt ≥ 1` and positive `base_delay`, `max_delay`, the result
is `d + j` with `d = min (base_delay * 2 ^ (attempt - 1)) max_delay` the
capped exponential delay and the jitter `j = u * (d * (1/4))` ranging over
`[0, 0.25 * d]` as the uniform draw `u` ranges over `[0, 1]`; hence the
result is at least `d` and at most `1.25 * max_delay`. -/
theorem compute_backoff_delay_correct (attempt : ℕ) (base_delay max_delay u : ℚ)
    (h1 : 1 ≤ attempt) (hb : 0 < base_delay) (hm : 0 < max_delay)
    (hu0 : 0 ≤ u) (hu1 : u ≤ 1) :
    compute_backoff_delay attempt base_delay max_delay u =
      min (base_delay * 2 ^ (attempt - 1)) max_delay +
        u * (min (base_delay * 2 ^ (attempt - 1)) max_delay * (1/4)) ∧
    0 ≤ u * (min (base_delay * 2 ^ (attempt - 1)) max_delay * (1/4)) ∧
    u * (min (base_delay * 2 ^ (attempt - 1)) max_delay * (1/4)) ≤
      min (base_delay * 2 ^ (attempt - 1)) max_delay * (1/4) ∧
    min (base_delay * 2 ^ (attempt - 1)) max_delay ≤
      compute_backoff_delay attempt base_delay max_delay u ∧
    compute_backoff_delay attempt base_delay max_delay u ≤ 5/4 * max_delay := by
  have he : compute_backoff_delay attempt base_delay max_delay u =
      min (base_delay * 2 ^ (attempt - 1)) max_delay +
        u * (min (base_delay * 2 ^ (attempt - 1)) max_delay * (1/4)) := rfl
  set d := min (base_delay * 2 ^ (attempt - 1)) max_delay with hd
  have hd0 : 0 < d := lt_min (by positivity) hm
  have hdm : d ≤ max_delay := min_le_right _ _
  have hj0 : 0 ≤ u * (d * (1/4)) := by positivity
  have hj1 : u * (d * (1/4)) ≤ d * (1/4) := by nlinarith
  refine ⟨he, hj0, hj1, ?_, ?_⟩
  · rw [he]; linarith
  · rw [he]; linarith

/-- Witness for C2 at `attempt = 1`, `base_delay = 1/5`, `max_delay = 2`,
`u = 1/2`. -/
theorem compute_backoff_delay_correct_witness :
    min ((1/5 : ℚ) * 2 ^ (1 - 1)) 2 ≤ compute_backoff_delay 1 (1/5) 2 (1/2) ∧
    compute_backoff_delay 1 (1/5) 2 (1/2) ≤ 5/4 * 2 :=
  ⟨(compute_backoff_delay_correct 1 (1/5) 2 (1/2) le_rfl (by norm_num)
      (by norm_num) (by norm_num) (by norm_num)).2.2.2.1,
   (compute_backoff_delay_correct 1 (1/5) 2 (1/2) le_rfl (by norm_num)
      (by norm_num) (by norm_num) (by norm_num)).2.2.2.2⟩

/-- Claim C3: `with_retries` raises `ValueError` when `attempts < 1`;
otherwise it invokes `func` at most `attempts` times, returns the result of
the first invocation that does not raise, re-raises a `PermanentError` at
the invocation that raises it with no further retries, and raises
`RuntimeError("failed after {attempts} attempts")` exactly when all
`attempts` invocations raise `TransientError`. -/
theorem with_retries_contract (func : ℕ → FuncOutcome) (attempts : ℤ) :
    (attempts < 1 → with_retries func attempts = (.valueError, 0)) ∧
    (1 ≤ attempts →
      ((with_retries func attempts).2 : ℤ) ≤ attempts ∧
      (∀ (k : ℕ) (str : String), 1 ≤ k → (k : ℤ) ≤ attempts →
        (∀ i, 1 ≤ i → i < k → func i = .transient) → func k = .ok str →
        with_retries func attempts = (.ok str, k)) ∧
      (∀ (k : ℕ), 1 ≤ k → (k : ℤ) ≤ attempts →
        (∀ i, 1 ≤ i → i < k → func i = .transient) → func k = .permanent →
        with_retries func attempts = (.permanentError, k)) ∧
      ((∀ (i : ℕ), 1 ≤ i → (i : ℤ) ≤ attempts → func i = .transient) ↔
        with_retries func attempts =
          (.failedAfter attempts.toNat, attempts.toNat))) := by
  constructor
  · intro h
    simp [with_retries, h]
  · intro h
    have hnlt : ¬ attempts < 1 := by omega
    have hA : 1 ≤ attempts.toNat := by omega
    have hcast : (attempts.toNat : ℤ) = attempts := by omega
    refine ⟨?_, ?_, ?_, ?_⟩
    · rw [with_retries, if_neg hnlt]
      have := retryGo_count_le func attempts.toNat attempts.toNat 1
      omega
    · intro k str hk1 hka hpre hk
      rw [with_retries, if_neg hnlt]
      rw [retryGo_first_ok func attempts.toNat attempts.toNat 1 k str
        (by omega) hk1 (by omega) (fun i h1 h2 => hpre i h1 h2) hk]
      simp
    · intro k hk1 hka hpre hk
      rw [with_retries, if_neg hnlt]
      rw [retryGo_first_permanent func attempts.toNat attempts.toNat 1 k
        (by omega) hk1 (by omega) (fun i h1 h2 => hpre i h1 h2) hk]
      simp
    · constructor
      · intro htr
        rw [with_retries, if_neg hnlt]
        exact retryGo_all_transient func attempts.toNat attempts.toNat 1
          (by omega) (by omega) (fun i hi1 hi2 => htr i hi1 (by omega))
      · intro hres i hi1 hi2
        rw [with_retries, if_neg hnlt] at hres
        exact retryGo_failedAfter_transient func attempts.toNat attempts.toNat 1
          (by omega) (by rw [hres]) i hi1 (by omega)

/-- Witness for C3: with a callable that always raises `TransientError` and
`attempts = 2`, `with_retries` raises `RuntimeError("failed after 2
attempts")` after exactly 2 invocations. -/
theorem with_retries_contract_witness :
    with_retries (fun _ => .transient) 2 = (.failedAfter 2, 2) :=
  ((with_retries_contract (fun _ => .transient) 2).2 (by norm_num)).2.2.2.1
    (fun _ _ _ => rfl)

/-- Claim C8: for the flaky callable of `flaky_call_factory` (raising
`TransientError` on its first two invocations and returning `"success"`
from the third on), `with_retries(call, attempts=5, ...)` returns
`"success"` after exactly three invocations of the underlying call (the
`base_delay`/`max_delay` keyword arguments only shape the sleeps between
attempts, which do not affect the outcome). -/
theorem retry_example : with_retries flaky_call 5 = (.ok "success", 3) := by
  decide

/-- Claim C10: for every `attempts ≥ 1`, `with_retries` terminates inside
the retry loop by returning or raising; the trailing
`raise RuntimeError("unexpected retry flow")` after the loop is never
reached (and, `attempts` being valid, neither is the `ValueError`). -/
theorem with_retries_no_unexpected (func : ℕ → FuncOutcome) (attempts : ℤ)
    (h : 1 ≤ attempts) :
    (with_retries func attempts).1 ≠ .unexpectedFlow ∧
    (with_retries func attempts).1 ≠ .valueError := by
  have hnlt : ¬ attempts < 1 := by omega
  constructor
  · rw [with_retries, if_neg hnlt]
    exact retryGo_ne_unexpected func attempts.toNat attempts.toNat 1
      (by omega) (by omega)
  · rw [with_retries, if_neg hnlt]
    exact retryGo_ne_valueError func attempts.toNat _

/-- Witness for C10 at a callable that always succeeds and `attempts = 1`. -/
theorem with_retries_no_unexpected_witness :
    (with_retries (fun _ => .ok "x") 1).1 ≠ .unexpectedFlow ∧
    (with_retries (fun _ => .ok "x") 1).1 ≠ .valueError :=
  with_retries_no_unexpected (fun _ => .ok "x") 1 (by norm_num)

end Retries

/-! ## Theorems about the circuit breaker -/

namespace Breaker

lemma call_closed_success (t : ℤ) (c : ℚ) (f : ℤ) (now openNow : ℚ)
    (s : String) :
    CircuitBreaker.call ⟨t, c, f, none⟩ now openNow (some s) =
      (.ok s, ⟨t, c, 0, none⟩) := rfl

lemma call_closed_failure (t : ℤ) (c : ℚ) (f : ℤ) (now openNow : ℚ) :
    CircuitBreaker.call ⟨t, c, f, none⟩ now openNow none =
      (.funcRaised, ⟨t, c, f + 1, if t ≤ f + 1 then some openNow else none⟩) := by
  simp [CircuitBreaker.call]

lemma call_open_cooldown (t : ℤ) (c : ℚ) (f : ℤ) (oa now openNow : ℚ)
    (fr : Option String) (h : now - oa < c) :
    CircuitBreaker.call ⟨t, c, f, some oa⟩ now openNow fr =
      (.circuitOpen, ⟨t, c, f, some oa⟩) := by
  simp [CircuitBreaker.call, h]

lemma call_open_elapsed (t : ℤ) (c : ℚ) (f : ℤ) (oa now openNow : ℚ)
    (fr : Option String) (h : ¬ now - oa < c) :
    CircuitBreaker.call ⟨t, c, f, some oa⟩ now openNow fr =
      CircuitBreaker.call ⟨t, c, 0, none⟩ now openNow fr := by
  simp [CircuitBreaker.call, h]

lemma runCalls_all_failures (t : ℤ) (c : ℚ) :
    ∀ (calls : List (ℚ × ℚ)) (f : ℤ), f + calls.length < t →
      runCalls ⟨t, c, f, none⟩ (calls.map fun p => (p.1, p.2, none)) =
        (calls.map fun _ => CBResult.funcRaised,
         ⟨t, c, f + calls.length, none⟩) := by
  intro calls
  induction calls with
  | nil => intro f h; simp [runCalls]
  | cons p rest ih =>
    intro f h
    have hlen : f + 1 + (rest.length : ℤ) < t := by
      simp only [List.length_cons] at h
      push_cast at h ⊢
      omega
    have hnot : ¬ t ≤ f + 1 := by omega
    simp only [List.map_cons, runCalls, call_closed_failure, if_neg hnot]
    rw [ih (f + 1) hlen]
    simp only [List.length_cons, Prod.mk.injEq, CircuitBreaker.mk.injEq,
      true_and, and_true]
    push_cast
    omega

/-- Claim C1: `CircuitBreaker` implements the open/half-open/closed circuit
breaker: a freshly constructed breaker is closed with zero failures; in the
closed state a successful invocation resets the consecutive-failure count
and a failing one increments it, opening the circuit (and recording the
opening time `openNow`) exactly when the count reaches `failure_threshold`;
while open and strictly less than `cooldown_s` after opening, `call` raises
`CircuitOpenError` for every behaviour of the wrapped callable, leaving the
state untouched; once at least `cooldown_s` has elapsed the breaker is
half-open: the probe invocation reaches the wrapped callable (its outcome
is the callable's outcome). -/
theorem circuit_breaker_contract (t : ℤ) (c : ℚ) (cb : CircuitBreaker)
    (now openNow : ℚ) :
    (({ failure_threshold := t, cooldown_s := c } :
        CircuitBreaker)._failures = 0 ∧
     ({ failure_threshold := t, cooldown_s := c } :
        CircuitBreaker)._opened_at = none) ∧
    (cb._opened_at = none → ∀ s,
      cb.call now openNow (some s) = (.ok s, { cb with _failures := 0 })) ∧
    (cb._opened_at = none →
      cb.call now openNow none =
        (.funcRaised,
         { cb with
            _failures := cb._failures + 1
            _opened_at := if cb.failure_threshold ≤ cb._failures + 1
                          then some openNow else none })) ∧
    (∀ oa, cb._opened_at = some oa → now - oa < cb.cooldown_s →
      ∀ funcRes, cb.call now openNow funcRes = (.circuitOpen, cb)) ∧
    (∀ oa, cb._opened_at = some oa → cb.cooldown_s ≤ now - oa →
      (∀ s, (cb.call now openNow (some s)).1 = .ok s) ∧
      (cb.call now openNow none).1 = .funcRaised) := by
  rcases cb with ⟨ct, cc, cf, coa⟩
  refine ⟨⟨rfl, rfl⟩, ?_, ?_, ?_, ?_⟩
  · intro h s
    cases h
    exact call_closed_success ct cc cf now openNow s
  · intro h
    cases h
    exact call_closed_failure ct cc cf now openNow
  · intro oa h hlt funcRes
    cases h
    exact call_open_cooldown ct cc cf oa now openNow funcRes hlt
  · intro oa h hle
    cases h
    have hnlt : ¬ now - oa < cc := not_lt.mpr hle
    constructor
    · intro s
      rw [call_open_elapsed ct cc cf oa now openNow (some s) hnlt,
        call_closed_success]
    · rw [call_open_elapsed ct cc cf oa now openNow none hnlt,
        call_closed_failure]

/-- Witness for C1: a closed breaker with threshold 2, a successful probe. -/
theorem circuit_breaker_contract_witness :
    CircuitBreaker.call ⟨2, 1, 0, none⟩ 0 0 (some "ok") =
      (.ok "ok", ⟨2, 1, 0, none⟩) :=
  (circuit_breaker_contract 2 1 ⟨2, 1, 0, none⟩ 0 0).2.1 rfl "ok"

/-- Claim C9: when `call` runs at least `cooldown_s` after the circuit
opened, it resets `_opened_at` to `None` and `_failures` to 0 before
invoking the wrapped callable; hence a failing half-open probe leaves
`_failures = 1` and reopens the circuit exactly when
`failure_threshold ≤ 1`; more generally, after the reset the breaker keeps
invoking the wrapped callable while fewer than `failure_threshold` new
consecutive failures have accumulated. -/
theorem circuit_breaker_half_open (cb : CircuitBreaker) (now openNow oa : ℚ)
    (hopen : cb._opened_at = some oa) (hcool : cb.cooldown_s ≤ now - oa) :
    (∀ funcRes, cb.call now openNow funcRes =
      CircuitBreaker.call { cb with _failures := 0, _opened_at := none }
        now openNow funcRes) ∧
    (cb.call now openNow none).2._failures = 1 ∧
    (cb.call now openNow none).2._opened_at =
      (if cb.failure_threshold ≤ 1 then some openNow else none) ∧
    (∀ (calls : List (ℚ × ℚ)), ((calls.length : ℤ) < cb.failure_threshold →
      runCalls { cb with _failures := 0, _opened_at := none }
          (calls.map fun p => (p.1, p.2, none)) =
        (calls.map fun _ => CBResult.funcRaised,
         { cb with _failures := (calls.length : ℤ), _opened_at := none }))) := by
  rcases cb with ⟨t, c, f, coa⟩
  cases hopen
  have hnlt : ¬ now - oa < c := not_lt.mpr hcool
  refine ⟨?_, ?_, ?_, ?_⟩
  · intro funcRes
    exact call_open_elapsed t c f oa now openNow funcRes hnlt
  · rw [call_open_elapsed t c f oa now openNow none hnlt,
      call_closed_failure]
    norm_num
  · rw [call_open_elapsed t c f oa now openNow none hnlt,
      call_closed_failure]
    norm_num
  · intro calls hlen
    have hlen' : (calls.length : ℤ) < t := hlen
    have := runCalls_all_failures t c calls 0 (by omega)
    simpa using this

/-- Witness for C9: threshold 2, cooldown 1, opened at time 0, probed at
time 1 with a failing callable: one accumulated failure, still closed. -/
theorem circuit_breaker_half_open_witness :
    (CircuitBreaker.call ⟨2, 1, 5, some 0⟩ 1 1 none).2._failures = 1 :=
  (circuit_breaker_half_open ⟨2, 1, 5, some 0⟩ 1 1 0 rfl (by norm_num)).2.1

end Breaker

/-! ## Theorems about the token bucket -/

namespace Bucket

lemma allow_fresh (cap rate now cost : ℚ) :
    (freshBucket cap rate).allow now cost =
      (if cost ≤ cap then
        .ok (true, ⟨cap, rate, some (cap - cost), some now⟩)
      else
        .ok (false, ⟨cap, rate, some cap, some now⟩)) := by
  simp [TokenBucket.allow, freshBucket]

lemma allow_step (cap rate t l now cost : ℚ) :
    TokenBucket.allow ⟨cap, rate, some t, some l⟩ now cost =
      (if cost ≤ min cap (t + (now - l) * rate) then
        .ok (true,
          ⟨cap, rate, some (min cap (t + (now - l) * rate) - cost), some now⟩)
      else
        .ok (false, ⟨cap, rate, some (min cap (t + (now - l) * rate)), some now⟩)) := by
  simp [TokenBucket.allow]

lemma runBucket_wf (cap rate : ℚ) (hcap : 0 ≤ cap) (hrate : 0 ≤ rate) :
    ∀ (calls : List (ℚ × ℚ)) (b : TokenBucket),
      (∀ c ∈ calls, 0 ≤ c.2) →
      ((b = freshBucket cap rate ∧ (calls.map Prod.fst).Chain' (· ≤ ·)) ∨
        (∃ t l, b = ⟨cap, rate, some t, some l⟩ ∧ 0 ≤ t ∧ t ≤ cap ∧
          List.Chain' (· ≤ ·) (l :: calls.map Prod.fst))) →
      ∃ b', runBucket b calls = .ok b' ∧
        (b' = freshBucket cap rate ∨
          ∃ t l, b' = ⟨cap, rate, some t, some l⟩ ∧ 0 ≤ t ∧ t ≤ cap) := by
  intro calls
  induction calls with
  | nil =>
    intro b _ hb
    refine ⟨b, rfl, ?_⟩
    rcases hb with ⟨hb, -⟩ | ⟨t, l, hb, h0, hc, -⟩
    · exact Or.inl hb
    · exact Or.inr ⟨t, l, hb, h0, hc⟩
  | cons c rest ih =>
    intro b hcost hb
    have hc0 : 0 ≤ c.2 := hcost c (List.mem_cons_self c rest)
    have hrest : ∀ x ∈ rest, 0 ≤ x.2 := fun x hx => hcost x (List.mem_cons_of_mem c hx)
    rcases hb with ⟨hb, hchain⟩ | ⟨t, l, hb, h0, hcle, hchain⟩
    · subst hb
      rw [List.map_cons, List.chain'_cons'] at hchain
      have hchain' : List.Chain' (· ≤ ·) (c.1 :: rest.map Prod.fst) := by
        rw [List.chain'_cons']
        exact hchain
      by_cases hle : c.2 ≤ cap
      · have hstep : runBucket (freshBucket cap rate) (c :: rest) =
            runBucket ⟨cap, rate, some (cap - c.2), some c.1⟩ rest := by
          simp only [runBucket, allow_fresh, if_pos hle]
        rw [hstep]
        exact ih ⟨cap, rate, some (cap - c.2), some c.1⟩ hrest
          (Or.inr ⟨cap - c.2, c.1, rfl, by linarith, by linarith, hchain'⟩)
      · have hstep : runBucket (freshBucket cap rate) (c :: rest) =
            runBucket ⟨cap, rate, some cap, some c.1⟩ rest := by
          simp only [runBucket, allow_fresh, if_neg hle]
        rw [hstep]
        exact ih ⟨cap, rate, some cap, some c.1⟩ hrest
          (Or.inr ⟨cap, c.1, rfl, hcap, le_refl cap, hchain'⟩)
    · subst hb
      rw [List.map_cons, List.chain'_cons] at hchain
      obtain ⟨hln, hchain⟩ := hchain
      have hchain' : List.Chain' (· ≤ ·) (c.1 :: rest.map Prod.fst) := hchain
      set t' := min cap (t + (c.1 - l) * rate) with ht'
      have ht'0 : 0 ≤ t' := by
        apply le_min hcap
        have : 0 ≤ (c.1 - l) * rate := mul_nonneg (by linarith) hrate
        linarith
      have ht'c : t' ≤ cap := min_le_left _ _
      by_cases hle : c.2 ≤ t'
      · have hstep : runBucket ⟨cap, rate, some t, some l⟩ (c :: rest) =
            runBucket ⟨cap, rate, some (t' - c.2), some c.1⟩ rest := by
          simp only [runBucket, allow_step, ← ht', if_pos hle]
        rw [hstep]
        exact ih ⟨cap, rate, some (t' - c.2), some c.1⟩ hrest
          (Or.inr ⟨t' - c.2, c.1, rfl, by linarith, by linarith, hchain'⟩)
      · have hstep : runBucket ⟨cap, rate, some t, some l⟩ (c :: rest) =
            runBucket ⟨cap, rate, some t', some c.1⟩ rest := by
          simp only [runBucket, allow_step, ← ht', if_neg hle]
        rw [hstep]
        exact ih ⟨cap, rate, some t', some c.1⟩ hrest
          (Or.inr ⟨t', c.1, rfl, ht'0, ht'c, hchain'⟩)

/-- Claim C4: `TokenBucket` implements token-bucket rate limiting: a fresh
bucket starts full at `capacity` (its first `allow` refills to exactly
`capacity` before deciding); every call on an initialised bucket first
refills the tokens by `elapsed * refill_rate_per_s` capped at `capacity`,
then returns `True` deducting exactly `cost` when the refilled count is at
least `cost` and `False` with no deduction otherwise; and along every
sequence of `allow` calls with nonnegative costs at nondecreasing times the
stored token count stays within `[0, capacity]`. -/
theorem token_bucket_contract (cap rate : ℚ) (hcap : 0 ≤ cap)
    (hrate : 0 ≤ rate) :
    (∀ now cost, (freshBucket cap rate).allow now cost =
      (if cost ≤ cap then
        .ok (true, ⟨cap, rate, some (cap - cost), some now⟩)
      else
        .ok (false, ⟨cap, rate, some cap, some now⟩))) ∧
    (∀ t l now cost, TokenBucket.allow ⟨cap, rate, some t, some l⟩ now cost =
      (if cost ≤ min cap (t + (now - l) * rate) then
        .ok (true,
          ⟨cap, rate, some (min cap (t + (now - l) * rate) - cost), some now⟩)
      else
        .ok (false,
          ⟨cap, rate, some (min cap (t + (now - l) * rate)), some now⟩))) ∧
    (∀ calls, ValidSeq calls →
      ∃ b', runBucket (freshBucket cap rate) calls = .ok b' ∧
        (b' = freshBucket cap rate ∨
          ∃ t l, b' = ⟨cap, rate, some t, some l⟩ ∧ 0 ≤ t ∧ t ≤ cap)) := by
  refine ⟨fun now cost => allow_fresh cap rate now cost,
    fun t l now cost => allow_step cap rate t l now cost, ?_⟩
  intro calls hv
  exact runBucket_wf cap rate hcap hrate calls (freshBucket cap rate)
    hv.2 (Or.inl ⟨rfl, hv.1⟩)

/-- Witness for C4: capacity 3, rate 1, first call at time 0 with cost 1 is
allowed and leaves 2 tokens. -/
theorem token_bucket_contract_witness :
    (freshBucket 3 1).allow 0 1 = .ok (true, ⟨3, 1, some 2, some 0⟩) := by
  rw [(token_bucket_contract 3 1 (by norm_num) (by norm_num)).1 0 1]
  norm_num

end Bucket

/-! ## Theorems about the immutable cart -/

namespace Immutable

/-- Claim C6: the script's value types are immutable records (frozen
dataclasses; in this embedding all values are immutable by construction,
so the argument cart is never changed by a call) and `add_item` returns a
new value: for a non-empty item it returns a new `Cart` whose items are the
argument's items with the item appended at the end, and for an empty item
it raises `ValueError`, in both cases leaving the argument cart's items
denoting the same tuple as before. -/
theorem add_item_contract (cart : Cart) (item : String) :
    (item ≠ "" → add_item cart item = .ok ⟨cart.items ++ [item]⟩) ∧
    (item = "" → add_item cart item = .error ()) := by
  constructor
  · intro h
    simp [add_item, h]
  · intro h
    simp [add_item, h]

/-- Witness for C6: adding `"Pen"` to a cart holding `"Book"`. -/
theorem add_item_contract_witness :
    add_item ⟨["Book"]⟩ "Pen" = .ok ⟨["Book", "Pen"]⟩ := by
  rw [(add_item_contract ⟨["Book"]⟩ "Pen").1 (by decide)]
  rfl

end Immutable

/-! ## Theorems about the duplicated lru_cache example -/

/-- Claim C7: the duplicate files `src/14_lru_cache.py` and
`src/python/14_lru_cache.py` (same filename twice, differing only in the
formatting of the header comment) define behaviourally identical
`currency_rate` functions: their embeddings are equal as functions, so for
every `(base, quote)` both return the same rate or raise `ValueError` with
the same message. -/
theorem currency_rate_duplicates_equal :
    CacheRoot.currency_rate = CachePy.currency_rate := rfl

/-! ## Theorems about the pricing example -/

namespace Pricing

lemma validate_item_of_valid (item : LineItem) (h : ValidItem item) :
    validate_item item = .ok () := by
  obtain ⟨h1, h2, h3⟩ := h
  rw [validate_item, if_neg (by simp [h1]), if_neg (not_lt.mpr h2),
    if_neg (not_le.mpr h3)]

lemma validate_item_of_invalid (item : LineItem) (h : ¬ ValidItem item) :
    validate_item item = .error .invalidItem := by
  rw [validate_item]
  cases h1 : blankName item.name with
  | true => rw [if_pos (by simp [h1])]
  | false =>
    rw [if_neg (by simp [h1])]
    by_cases h2 : item.price < 0
    · rw [if_pos h2]
    · rw [if_neg h2]
      by_cases h3 : item.qty ≤ 0
      · rw [if_pos h3]
      · exact absurd ⟨h1, not_lt.mp h2, not_le.mp h3⟩ h

lemma validate_item_valid_iff (item : LineItem) :
    validate_item item = .ok () ↔ ValidItem item := by
  constructor
  · intro h
    by_contra hv
    rw [validate_item_of_invalid item hv] at h
    exact absurd h (by simp)
  · exact validate_item_of_valid item

lemma validate_item_error_kind (item : LineItem) (e : PricingErr)
    (h : validate_item item = .error e) : e = .invalidItem := by
  rw [validate_item] at h
  split_ifs at h <;> simp_all

lemma totalsLoop_ok (tax : ℚ) :
    ∀ (items : List LineItem) (acc : List (String × ℚ)),
      (∀ i ∈ items, ValidItem i) →
      (∀ i ∈ items, i.name ∉ acc.map Prod.fst) →
      (items.map LineItem.name).Nodup →
      totalsLoop tax items acc =
        .ok (acc ++ items.map fun i =>
          (i.name, pyRound2 (i.price * (i.qty : ℚ) * (1 + tax)))) := by
  intro items
  induction items with
  | nil => intro acc _ _ _; simp [totalsLoop]
  | cons i rest ih =>
    intro acc hval hacc hnd
    have hvi : ValidItem i := hval i (List.mem_cons_self i rest)
    have hnin : i.name ∉ acc.map Prod.fst := hacc i (List.mem_cons_self i rest)
    rw [List.map_cons, List.nodup_cons] at hnd
    obtain ⟨hnmem, hnd⟩ := hnd
    simp only [totalsLoop, validate_item_of_valid i hvi, if_neg hnin]
    rw [ih (acc ++ [(i.name, pyRound2 (i.price * (i.qty : ℚ) * (1 + tax)))])
      (fun x hx => hval x (List.mem_cons_of_mem i hx))
      ?_ hnd]
    · simp
    · intro x hx
      rw [List.map_append, List.mem_append]
      push_neg
      refine ⟨hacc x (List.mem_cons_of_mem i hx), ?_⟩
      simp only [List.map_cons, List.map_nil, List.mem_singleton]
      intro hxn
      exact hnmem (hxn ▸ List.mem_map_of_mem LineItem.name hx)

lemma totalsLoop_ok_inv (tax : ℚ) :
    ∀ (items : List LineItem) (acc : List (String × ℚ)) (v : List (String × ℚ)),
      totalsLoop tax items acc = .ok v →
      (∀ i ∈ items, ValidItem i) ∧ (items.map LineItem.name).Nodup ∧
        (∀ i ∈ items, i.name ∉ acc.map Prod.fst) := by
  intro items
  induction items with
  | nil => intro acc v _; exact ⟨by simp, by simp, by simp⟩
  | cons i rest ih =>
    intro acc v h
    rw [totalsLoop] at h
    cases hv : validate_item i with
    | error e => rw [hv] at h; simp at h
    | ok u =>
      cases u
      rw [hv] at h
      simp only at h
      by_cases hmem : i.name ∈ acc.map Prod.fst
      · rw [if_pos hmem] at h; simp at h
      · rw [if_neg hmem] at h
        obtain ⟨hval, hnd, hnot⟩ := ih _ v h
        have hvi : ValidItem i := (validate_item_valid_iff i).mp hv
        have hnames : ∀ x ∈ rest, x.name ∉ acc.map Prod.fst ∧ x.name ≠ i.name := by
          intro x hx
          have := hnot x hx
          rw [List.map_append, List.mem_append] at this
          push_neg at this
          refine ⟨this.1, ?_⟩
          have h2 := this.2
          simp only [List.map_cons, List.map_nil, List.mem_singleton] at h2
          exact h2
        refine ⟨?_, ?_, ?_⟩
        · intro x hx
          rcases List.mem_cons.mp hx with rfl | hx
          · exact hvi
          · exact hval x hx
        · rw [List.map_cons, List.nodup_cons]
          refine ⟨?_, hnd⟩
          intro hmm
          obtain ⟨r, hr, hrn⟩ := List.mem_map.mp hmm
          exact (hnames r hr).2 hrn
        · intro x hx
          rcases List.mem_cons.mp hx with rfl | hx
          · exact hmem
          · exact (hnames x hx).1

lemma totalsLoop_ne_invalidTax (tax : ℚ) :
    ∀ (items : List LineItem) (acc : List (String × ℚ)),
      totalsLoop tax items acc ≠ .error .invalidTax := by
  intro items
  induction items with
  | nil => intro acc; simp [totalsLoop]
  | cons i rest ih =>
    intro acc
    rw [totalsLoop]
    cases hv : validate_item i with
    | error e =>
      have he := validate_item_error_kind i e hv
      subst he
      simp
    | ok u =>
      cases u
      simp only
      by_cases hmem : i.name ∈ acc.map Prod.fst
      · rw [if_pos hmem]; simp
      · rw [if_neg hmem]; exact ih _


lemma totalsLoop_first_invalid (tax : ℚ) :
    ∀ (items : List LineItem) (acc : List (String × ℚ)) (k : ℕ)
      (hk : k < items.length),
      (∀ j (hj : j < items.length), j < k →
        ValidItem (items.get ⟨j, hj⟩) ∧
        (items.get ⟨j, hj⟩).name ∉
          acc.map Prod.fst ++ (items.take j).map LineItem.name) →
      ¬ ValidItem (items.get ⟨k, hk⟩) →
      totalsLoop tax items acc = .error .invalidItem := by
  intro items
  induction items with
  | nil => intro acc k hk; simp at hk
  | cons i rest ih =>
    intro acc k hk hpre hinv
    cases k with
    | zero =>
      simp only [List.get] at hinv
      rw [totalsLoop, validate_item_of_invalid i hinv]
    | succ k =>
      obtain ⟨hvi, hni⟩ := hpre 0 (by simp) (by omega)
      simp only [List.get, List.take_zero, List.map_nil, List.append_nil] at hvi hni
      rw [totalsLoop, validate_item_of_valid i hvi]
      simp only
      rw [if_neg hni]
      refine ih _ k (by simpa using hk) ?_ (by simpa using hinv)
      intro j hj hjk
      obtain ⟨hv, hn⟩ := hpre (j + 1) (by simpa using hj) (by omega)
      refine ⟨by simpa using hv, ?_⟩
      intro hmem
      apply hn
      simp only [List.get_eq_getElem, List.getElem_cons_succ, List.map_take,
        List.take_succ_cons, List.map_cons, List.map_append, List.map_nil,
        List.mem_append, List.mem_cons, List.mem_singleton, List.not_mem_nil,
        or_false, false_or] at hmem ⊢
      tauto

lemma totalsLoop_first_dup (tax : ℚ) :
    ∀ (items : List LineItem) (acc : List (String × ℚ)) (k : ℕ)
      (hk : k < items.length),
      (∀ j (hj : j < items.length), j < k →
        ValidItem (items.get ⟨j, hj⟩) ∧
        (items.get ⟨j, hj⟩).name ∉
          acc.map Prod.fst ++ (items.take j).map LineItem.name) →
      ValidItem (items.get ⟨k, hk⟩) →
      (items.get ⟨k, hk⟩).name ∈
        acc.map Prod.fst ++ (items.take k).map LineItem.name →
      totalsLoop tax items acc = .error .duplicateItem := by
  intro items
  induction items with
  | nil => intro acc k hk; simp at hk
  | cons i rest ih =>
    intro acc k hk hpre hval hmem
    cases k with
    | zero =>
      simp only [List.get] at hval
      simp only [List.get, List.take_zero, List.map_nil, List.append_nil] at hmem
      rw [totalsLoop, validate_item_of_valid i hval]
      simp only
      rw [if_pos hmem]
    | succ k =>
      obtain ⟨hvi, hni⟩ := hpre 0 (by simp) (by omega)
      simp only [List.get, List.take_zero, List.map_nil, List.append_nil] at hvi hni
      rw [totalsLoop, validate_item_of_valid i hvi]
      simp only
      rw [if_neg hni]
      refine ih _ k (by simpa using hk) ?_ (by simpa using hval) ?_
      · intro j hj hjk
        obtain ⟨hv, hn⟩ := hpre (j + 1) (by simpa using hj) (by omega)
        refine ⟨by simpa using hv, ?_⟩
        intro hmm
        apply hn
        simp only [List.get_eq_getElem, List.getElem_cons_succ, List.map_take,
          List.take_succ_cons, List.map_cons, List.map_append, List.map_nil,
          List.mem_append, List.mem_cons, List.mem_singleton, List.not_mem_nil,
          or_false, false_or] at hmm ⊢
        tauto
      · simp only [List.get_eq_getElem, List.getElem_cons_succ, List.map_take,
          List.take_succ_cons, List.map_cons, List.map_append, List.map_nil,
          List.mem_append, List.mem_cons, List.mem_singleton, List.not_mem_nil,
          or_false, false_or] at hmem ⊢
        tauto

/-- Claim C5 (amended): every error `calculate_totals` signals is one of the
`PricingError` subclasses (the embedding's error type `PricingErr` contains
exactly those); it raises `InvalidTaxError` iff `tax < 0`; for `tax ≥ 0` it
walks the items in list order validating each item before checking its name
against the names already seen, so that at the first offending index an
invalid item raises `InvalidItemError` and a valid item repeating an
earlier name raises `DuplicateItemError` (not the order the original claim
states, under which any invalid item anywhere would beat any duplicate);
it succeeds iff every item is valid and the names are pairwise distinct,
returning the insertion-ordered mapping from each name to
`round(price * qty * (1 + tax), 2)`. -/
theorem calculate_totals_contract (items : List LineItem) (tax : ℚ) :
    (calculate_totals items tax = .error .invalidTax ↔ tax < 0) ∧
    (0 ≤ tax →
      ((∀ i ∈ items, ValidItem i) → (items.map LineItem.name).Nodup →
        calculate_totals items tax =
          .ok (items.map fun i =>
            (i.name, pyRound2 (i.price * (i.qty : ℚ) * (1 + tax))))) ∧
      (∀ v, calculate_totals items tax = .ok v →
        (∀ i ∈ items, ValidItem i) ∧ (items.map LineItem.name).Nodup) ∧
      (∀ k (hk : k < items.length),
        (∀ j (hj : j < items.length), j < k →
          ValidItem (items.get ⟨j, hj⟩) ∧
          (items.get ⟨j, hj⟩).name ∉ (items.take j).map LineItem.name) →
        ((¬ ValidItem (items.get ⟨k, hk⟩) →
            calculate_totals items tax = .error .invalidItem) ∧
         (ValidItem (items.get ⟨k, hk⟩) →
          (items.get ⟨k, hk⟩).name ∈ (items.take k).map LineItem.name →
            calculate_totals items tax = .error .duplicateItem)))) := by
  constructor
  · constructor
    · intro h
      by_contra hlt
      push_neg at hlt
      rw [calculate_totals, if_neg (not_lt.mpr hlt)] at h
      exact totalsLoop_ne_invalidTax tax items [] h
    · intro h
      rw [calculate_totals, if_pos h]
  · intro htax
    have hnlt : ¬ tax < 0 := not_lt.mpr htax
    refine ⟨?_, ?_, ?_⟩
    · intro hval hnd
      rw [calculate_totals, if_neg hnlt,
        totalsLoop_ok tax items [] hval (by simp) hnd]
      simp
    · intro v hv
      rw [calculate_totals, if_neg hnlt] at hv
      have h := totalsLoop_ok_inv tax items [] v hv
      exact ⟨h.1, h.2.1⟩
    · intro k hk hpre
      constructor
      · intro hinv
        rw [calculate_totals, if_neg hnlt]
        refine totalsLoop_first_invalid tax items [] k hk ?_ hinv
        intro j hj hjk
        have h := hpre j hj hjk
        simpa using h
      · intro hval hmem
        rw [calculate_totals, if_neg hnlt]
        refine totalsLoop_first_dup tax items [] k hk ?_ hval (by simpa using hmem)
        intro j hj hjk
        have h := hpre j hj hjk
        simpa using h

/-- Counterexample to claim C5 as stated: for the items
`[("A", 1, 1), ("A", 1, 1), ("B", -1, 1)]` with `tax = 0`, the tax is
nonnegative and an item with a negative price is present, yet
`calculate_totals` raises `DuplicateItemError` (the duplicate at index 1 is
hit before the invalid item at index 2), not the `InvalidItemError` the
claim's "otherwise ... iff some item ..." ordering requires. -/
theorem calculate_totals_claim_counterexample :
    (0 : ℚ) ≤ 0 ∧
    (∃ i ∈ ([⟨"A", 1, 1⟩, ⟨"A", 1, 1⟩, ⟨"B", -1, 1⟩] : List LineItem),
      ¬ ValidItem i) ∧
    calculate_totals [⟨"A", 1, 1⟩, ⟨"A", 1, 1⟩, ⟨"B", -1, 1⟩] 0 =
      .error .duplicateItem ∧
    calculate_totals [⟨"A", 1, 1⟩, ⟨"A", 1, 1⟩, ⟨"B", -1, 1⟩] 0 ≠
      .error .invalidItem := by
  have hres : calculate_totals [⟨"A", 1, 1⟩, ⟨"A", 1, 1⟩, ⟨"B", -1, 1⟩] 0 =
      .error .duplicateItem := rfl
  refine ⟨le_refl 0, ⟨⟨"B", -1, 1⟩, by simp, fun h => absurd h.2.1 (by norm_num)⟩,
    hres, ?_⟩
  rw [hres]
  simp

/-- Witness for C5 (amended) on the module's own good input: one valid item
`("Book", 10.0, 2)` at `tax = 0` succeeds with total `20`. -/
theorem calculate_totals_contract_witness :
    calculate_totals [⟨"Book", 10, 2⟩] 0 = .ok [("Book", 20)] := by
  have h := ((calculate_totals_contract [⟨"Book", 10, 2⟩] 0).2 (le_refl 0)).1
    (by
      intro i hi
      simp only [List.mem_singleton] at hi
      subst hi
      exact ⟨by decide, by norm_num, by norm_num⟩)

    (by simp)
  rw [h]
  norm_num [pyRound2, roundHalfEven]

end Pricing
